import Mathlib

/-!
Verification development for the runit engineering-quantity library.

The library stores a scalar as a mantissa paired with an SI magnitude
prefix (`Number` in src/number.rs) and a physical quantity as a scalar
tagged with a unit (`UnitNumber` in src/unit/mod.rs); arithmetic converts
to the absolute value, operates, and renormalizes.

Modelling conventions of this shallow embedding:
  - Rust `f64` values are modelled as exact rationals (`ℚ`); the claims
    under study concern which branch the code takes and exact table
    boundaries, which coincide with the exact-arithmetic reading.  A
    separate small model (`FP`) with NaN and signed infinities is used for
    the one claim that is specifically about NaN behaviour.
  - Rust strings are modelled as `List Char`; `str::trim`, `ends_with`
    and suffix stripping become the corresponding list operations.
  - Rust's early-return `for` loops over the constant tables become
    structural recursions over the same tables.
-/

namespace Runit

/-- SI magnitude prefixes (src/number.rs, `enum Suffix`). -/
inductive Suffix where
  | giga
  | mega
  | kilo
  | none
  | milli
  | micro
  | nano
  | pico
  deriving DecidableEq, Repr

/-- `Suffix::factor` (src/number.rs): the multiplicative factor of each
prefix, `1e9` down to `1e-12`, as an exact rational. -/
def Suffix.factor : Suffix → ℚ
  | .giga => 10 ^ 9
  | .mega => 10 ^ 6
  | .kilo => 10 ^ 3
  | .none => 1
  | .milli => 1 / 10 ^ 3
  | .micro => 1 / 10 ^ 6
  | .nano => 1 / 10 ^ 9
  | .pico => 1 / 10 ^ 12

/-- `Suffix::name` (src/number.rs): the canonical output symbol. -/
def Suffix.name : Suffix → List Char
  | .giga => ['G']
  | .mega => ['M']
  | .kilo => ['K']
  | .none => []
  | .milli => ['m']
  | .micro => ['u']
  | .nano => ['n']
  | .pico => ['p']

/-- `PREFIX_VALUE_TABLE` (src/number.rs lines 71-80): prefixes with their
factors in descending factor order, used by normalization. -/
def PREFIX_VALUE_TABLE : List (Suffix × ℚ) :=
  [(Suffix.giga, 10 ^ 9),
   (Suffix.mega, 10 ^ 6),
   (Suffix.kilo, 10 ^ 3),
   (Suffix.none, 1),
   (Suffix.milli, 1 / 10 ^ 3),
   (Suffix.micro, 1 / 10 ^ 6),
   (Suffix.nano, 1 / 10 ^ 9),
   (Suffix.pico, 1 / 10 ^ 12)]

/-- `PREFIX_TABLE` (src/number.rs lines 82-91): prefix symbols in the
fixed parsing priority order; both "K" and "k" map to kilo. -/
def PREFIX_TABLE : List (Suffix × List Char) :=
  [(Suffix.giga, ['G']),
   (Suffix.mega, ['M']),
   (Suffix.kilo, ['K']),
   (Suffix.kilo, ['k']),
   (Suffix.milli, ['m']),
   (Suffix.micro, ['u']),
   (Suffix.nano, ['n']),
   (Suffix.pico, ['p'])]

/-- `struct Number` (src/number.rs): a mantissa and a prefix. -/
structure Number where
  value : ℚ
  suffix : Suffix
  deriving DecidableEq, Repr

/-- `Number::to_f64` (src/number.rs): the absolute numeric value. -/
def Number.to_f64 (n : Number) : ℚ :=
  n.value * n.suffix.factor

/-- The early-return loop inside `Number::from_f64` (src/number.rs lines
105-109): first table entry whose factor is at most the absolute value. -/
def fromF64Go (val : ℚ) : List (Suffix × ℚ) → Number
  | [] => ⟨val, Suffix.none⟩
  | (s, f) :: rest => if f ≤ |val| then ⟨val / f, s⟩ else fromF64Go val rest

/-- `Number::from_f64` (src/number.rs lines 102-112): normalize an
absolute value by scanning `PREFIX_VALUE_TABLE`; if no entry qualifies the
value keeps prefix none. -/
def Number.from_f64 (val : ℚ) : Number :=
  fromF64Go val PREFIX_VALUE_TABLE

/-- `impl Add for Number` (src/number.rs lines 188-193). -/
def Number.add (a b : Number) : Number :=
  Number.from_f64 (a.to_f64 + b.to_f64)

/-- `impl Sub for Number` (src/number.rs lines 195-200). -/
def Number.sub (a b : Number) : Number :=
  Number.from_f64 (a.to_f64 - b.to_f64)

/-- `impl Mul for Number` (src/number.rs lines 202-207). -/
def Number.mul (a b : Number) : Number :=
  Number.from_f64 (a.to_f64 * b.to_f64)

/-- `impl Div for Number` (src/number.rs lines 209-214). -/
def Number.div (a b : Number) : Number :=
  Number.from_f64 (a.to_f64 / b.to_f64)

/-- `impl Add<f64> for Number` (src/number.rs lines 216-221). -/
def Number.addF (a : Number) (rhs : ℚ) : Number :=
  Number.from_f64 (a.to_f64 + rhs)

/-- `impl Sub<f64> for Number` (src/number.rs lines 223-228). -/
def Number.subF (a : Number) (rhs : ℚ) : Number :=
  Number.from_f64 (a.to_f64 - rhs)

/-- `impl Mul<f64> for Number` (src/number.rs lines 230-235). -/
def Number.mulF (a : Number) (rhs : ℚ) : Number :=
  Number.from_f64 (a.to_f64 * rhs)

/-- `impl Div<f64> for Number` (src/number.rs lines 237-242). -/
def Number.divF (a : Number) (rhs : ℚ) : Number :=
  Number.from_f64 (a.to_f64 / rhs)

/-- `impl Add<Number> for f64` (src/number.rs lines 244-249). -/
def Number.fAdd (lhs : ℚ) (b : Number) : Number :=
  Number.from_f64 (lhs + b.to_f64)

/-- `impl Sub<Number> for f64` (src/number.rs lines 251-256). -/
def Number.fSub (lhs : ℚ) (b : Number) : Number :=
  Number.from_f64 (lhs - b.to_f64)

/-- `impl Mul<Number> for f64` (src/number.rs lines 258-263). -/
def Number.fMul (lhs : ℚ) (b : Number) : Number :=
  Number.from_f64 (lhs * b.to_f64)

/-- `impl Div<Number> for f64` (src/number.rs lines 265-270). -/
def Number.fDiv (lhs : ℚ) (b : Number) : Number :=
  Number.from_f64 (lhs / b.to_f64)

/-- The derived `PartialEq` on `Number` (src/number.rs line 19): structural
equality, field by field. -/
def Number.eqStruct (a b : Number) : Prop :=
  a.value = b.value ∧ a.suffix = b.suffix

/-- `impl PartialOrd for Number` (src/number.rs lines 294-298): compare the
absolute values.  On `f64` the comparison is `None` exactly when an operand
is NaN; NaN does not exist in the exact-rational model (the `FP` model
below covers it), so here the comparison is always defined. -/
def Number.partialCmp (a b : Number) : Option Ordering :=
  some (compare a.to_f64 b.to_f64)

/-- `impl Ord for Number` (src/number.rs lines 314-318): unwrap of
`partial_cmp`, total in the exact-rational model. -/
def Number.cmp (a b : Number) : Ordering :=
  compare a.to_f64 b.to_f64

/-- Rust `str::trim` on the character-list model: drop whitespace from
both ends. -/
def trimList (l : List Char) : List Char :=
  ((l.dropWhile Char.isWhitespace).reverse.dropWhile Char.isWhitespace).reverse

/-- Rust `&s[..s.len() - suffix.len()]` after a successful `ends_with`:
remove a suffix of the given length. -/
def dropSuffixList (l suf : List Char) : List Char :=
  l.take (l.length - suf.length)

/-- Numeric value of a list of decimal digit characters. -/
def digitsVal (l : List Char) : ℕ :=
  l.foldl (fun a c => 10 * a + (c.toNat - 48)) 0

/-- Digits of an exponent: nonempty all-digit tail. -/
def parseExpDigits (l : List Char) : Option ℤ :=
  if l ≠ [] ∧ l.all Char.isDigit then some (digitsVal l) else none

/-- An exponent with its optional sign. -/
def parseExp (l : List Char) : Option ℤ :=
  match l with
  | '+' :: r => parseExpDigits r
  | '-' :: r => (parseExpDigits r).map Neg.neg
  | r => parseExpDigits r

/-- Modelled from Rust std `str::parse::<f64>` on the part after the sign:
digits with an optional fractional part and an optional decimal exponent.
The special forms inf/infinity/NaN have no finite rational counterpart and
are outside this model. -/
def parseUnsigned (s : List Char) : Option ℚ :=
  let ip := s.takeWhile Char.isDigit
  let rest := s.dropWhile Char.isDigit
  match rest with
  | [] => if ip = [] then none else some (digitsVal ip : ℚ)
  | '.' :: r2 =>
    let fp := r2.takeWhile Char.isDigit
    let r3 := r2.dropWhile Char.isDigit
    if ip = [] ∧ fp = [] then none
    else
      let base : ℚ := (digitsVal ip : ℚ) + (digitsVal fp : ℚ) / 10 ^ fp.length
      match r3 with
      | [] => some base
      | 'e' :: r4 => (parseExp r4).map fun e => base * 10 ^ e
      | 'E' :: r4 => (parseExp r4).map fun e => base * 10 ^ e
      | _ => none
  | 'e' :: r4 =>
    if ip = [] then none
    else (parseExp r4).map fun e => (digitsVal ip : ℚ) * 10 ^ e
  | 'E' :: r4 =>
    if ip = [] then none
    else (parseExp r4).map fun e => (digitsVal ip : ℚ) * 10 ^ e
  | _ => none

/-- Modelled from Rust std `str::parse::<f64>` restricted to finite
decimal literals: an optional sign followed by a decimal number. -/
def parseFloat (s : List Char) : Option ℚ :=
  match s with
  | '+' :: r => parseUnsigned r
  | '-' :: r => (parseUnsigned r).map Neg.neg
  | s => parseUnsigned s

/-- The error string `format!("Parse number '{}' error for '{}'", s, e)`
of src/number.rs, with the float error's display text. -/
def parseNumErr (s : List Char) : List Char :=
  "Parse number '".data ++ s ++ "' error for 'invalid float literal'".data

/-- The tail-match loop of `impl FromStr for Number` (src/number.rs lines
155-162): try each table entry in order as a suffix of the input; on the
first hit, strip it and parse the head as a float (the source trims the
head again before parsing but reports the untrimmed head in the error);
a head that fails to parse fails the whole parse rather than trying later
entries. -/
def fromStrGo (t : List Char) : List (Suffix × List Char) → Except (List Char) Number
  | [] =>
    match parseFloat t with
    | some v => .ok ⟨v, Suffix.none⟩
    | none => .error (parseNumErr t)
  | (suf, sym) :: rest =>
    if sym <:+ t then
      let numStr := dropSuffixList t sym
      match parseFloat (trimList numStr) with
      | some v => .ok ⟨v, suf⟩
      | none => .error (parseNumErr numStr)
    else fromStrGo t rest

/-- `impl FromStr for Number` (src/number.rs lines 151-167): trim, try the
prefix symbols of `PREFIX_TABLE` as tail matches in order, and fall back
to parsing the whole trimmed string with prefix none. -/
def Number.fromStr (s : List Char) : Except (List Char) Number :=
  fromStrGo (trimList s) PREFIX_TABLE

/-- Decimal digit characters of a natural number, least significant
first; the first argument is fuel (the number itself suffices). -/
def natDigitsRevGo : ℕ → ℕ → List Char
  | 0, _ => []
  | _ + 1, 0 => []
  | fuel + 1, n + 1 =>
    Char.ofNat (48 + (n + 1) % 10) :: natDigitsRevGo fuel ((n + 1) / 10)

/-- Decimal digit characters of a natural number, most significant
first. -/
def natDigits (n : ℕ) : List Char :=
  if n = 0 then ['0'] else (natDigitsRevGo n n).reverse

/-- `k` decimal digits of the fraction `r / d` (`r < d`) by long
division. -/
def fracDigits : ℕ → ℕ → ℕ → List Char
  | _, _, 0 => []
  | r, d, k + 1 => Char.ofNat (48 + r * 10 / d) :: fracDigits (r * 10 % d) d k

/-- Multiplicity of `p` in `n`; the first numeric argument is fuel (the
number itself suffices). -/
def padicCountGo (p : ℕ) : ℕ → ℕ → ℕ
  | 0, _ => 0
  | fuel + 1, n =>
    if 2 ≤ p ∧ 0 < n ∧ p ∣ n then padicCountGo p fuel (n / p) + 1 else 0

/-- Multiplicity of `p` in `n`. -/
def padicCount (p n : ℕ) : ℕ :=
  padicCountGo p n n

/-- Modelled from Rust `Display` for `f64` (`write!("{}", v)`): the sign,
the integer part, and — when the fraction is nonzero — the exact decimal
expansion of the fractional part without trailing zeros.  On the
decimal-representable rationals the round-trip claims quantify over, this
is exactly the decimal string Rust prints. -/
def dispQ (q : ℚ) : List Char :=
  let n := q.num.natAbs
  let d := q.den
  let ip := n / d
  let r := n % d
  let k := max (padicCount 2 d) (padicCount 5 d)
  let core := natDigits ip ++ (if r = 0 then [] else '.' :: fracDigits r d k)
  if q < 0 then '-' :: core else core

/-- `impl Display for Number` (src/number.rs lines 141-149, default
precision): the mantissa followed by the prefix symbol. -/
def Number.display (x : Number) : List Char :=
  dispQ x.value ++ x.suffix.name

/-- The unit tags of src/unit/units.rs (`define_unit!` lines 21-41).  The
source encodes each tag as a zero-size marker type; the model carries the
tag at run time, as §9 of the design notes describes for targets without
type-level dispatch. -/
inductive UTag where
  | voltage
  | current
  | resistance
  | capacitance
  | inductance
  | charge
  | power
  | energy
  | time
  | frequency
  | length
  | area
  | force
  | pressure
  | magneticFlux
  | fluxDensity
  | conductance
  | velocity
  | accel
  | temperature
  | angle
  deriving DecidableEq, Repr

/-- `Unit::name` for each tag (src/unit/units.rs lines 21-41). -/
def UTag.symbol : UTag → List Char
  | .voltage => ['V']
  | .current => ['A']
  | .resistance => ['Ω']
  | .capacitance => ['F']
  | .inductance => ['H']
  | .charge => ['Q']
  | .power => ['W']
  | .energy => ['J']
  | .time => ['s']
  | .frequency => ['H', 'z']
  | .length => ['m']
  | .area => ['m', '²']
  | .force => ['N']
  | .pressure => ['P', 'a']
  | .magneticFlux => ['W', 'b']
  | .fluxDensity => ['T']
  | .conductance => ['S']
  | .velocity => ['m', '/', 's']
  | .accel => ['m', '/', 's', '²']
  | .temperature => ['K']
  | .angle => ['r', 'a', 'd']

/-- The `Mul` impls generated in src/unit/ops.rs lines 52-67: entries
`(lhs, rhs, output)`, one per `impl_mul!` expansion (each `define_rule!`
expands to one). -/
def MUL_RULES : List (UTag × UTag × UTag) :=
  [(.resistance, .current, .voltage),
   (.voltage, .current, .power),
   (.power, .time, .energy),
   (.capacitance, .voltage, .charge),
   (.current, .time, .charge),
   (.charge, .time, .current),
   (.velocity, .time, .length),
   (.force, .velocity, .power),
   (.force, .length, .energy),
   (.pressure, .area, .force),
   (.fluxDensity, .area, .magneticFlux),
   (.voltage, .time, .magneticFlux),
   (.length, .length, .area)]

/-- The cross-unit `Div` impls generated in src/unit/ops.rs lines 52-68:
entries `(lhs, rhs, output)`, two per `define_rule!` expansion plus the
extra `impl_div!(Length, Area, Length)`. -/
def DIV_RULES : List (UTag × UTag × UTag) :=
  [(.voltage, .current, .resistance),
   (.voltage, .resistance, .current),
   (.power, .current, .voltage),
   (.power, .voltage, .current),
   (.energy, .time, .power),
   (.energy, .power, .time),
   (.charge, .voltage, .capacitance),
   (.charge, .capacitance, .voltage),
   (.charge, .time, .current),
   (.charge, .current, .time),
   (.current, .time, .charge),
   (.current, .charge, .time),
   (.length, .time, .velocity),
   (.length, .velocity, .time),
   (.power, .velocity, .force),
   (.power, .force, .velocity),
   (.energy, .length, .force),
   (.energy, .force, .length),
   (.force, .area, .pressure),
   (.force, .pressure, .area),
   (.magneticFlux, .area, .fluxDensity),
   (.magneticFlux, .fluxDensity, .area),
   (.magneticFlux, .time, .voltage),
   (.magneticFlux, .voltage, .time),
   (.area, .length, .length)]

/-- `UnitNumber<U>` (src/unit/mod.rs): a scalar tagged with a unit.  The
tag is a runtime field here; the source's type-level tags make the same
association statically. -/
structure Quantity where
  number : Number
  tag : UTag
  deriving DecidableEq, Repr

/-- The registered multiplication output for a pair of tags: the static
dispatch of the generated `Mul` impls as a table lookup. -/
def mulOutput (l r : UTag) : Option UTag :=
  (MUL_RULES.find? fun e => e.1 = l ∧ e.2.1 = r).map fun e => e.2.2

/-- The registered cross-unit division output for a pair of tags. -/
def divOutput (l r : UTag) : Option UTag :=
  (DIV_RULES.find? fun e => e.1 = l ∧ e.2.1 = r).map fun e => e.2.2

/-- Quantity multiplication (the generated `impl Mul` bodies, src/unit/ops.rs
lines 10-22): multiply the scalars, tag the result with the registered
output; `none` stands for the pairs with no impl (a compile error in the
source). -/
def qMul (x y : Quantity) : Option Quantity :=
  (mulOutput x.tag y.tag).map fun o => ⟨Number.mul x.number y.number, o⟩

/-- The result of dividing two quantities: a bare scalar for the
same-unit case, a tagged quantity for a registered rule, and `unsupported`
for the pairs with no impl (a compile error in the source). -/
inductive QDivResult where
  | scalar (n : Number)
  | quantity (q : Quantity)
  | unsupported
  deriving DecidableEq, Repr

/-- Quantity division: the same-tag case is the blanket
`impl Div<UnitNumber<U>> for UnitNumber<U>` (src/unit/ops.rs lines 82-87)
returning a bare `Number`; distinct tags dispatch to the generated
`impl Div` bodies (lines 26-38).  No generated rule has equal operand
tags, so the two cases never overlap. -/
def qDiv (x y : Quantity) : QDivResult :=
  if x.tag = y.tag then .scalar (Number.div x.number y.number)
  else
    match divOutput x.tag y.tag with
    | some o => .quantity ⟨Number.div x.number y.number, o⟩
    | none => .unsupported

/-- `impl Display for UnitNumber` (src/unit/mod.rs lines 67-75, default
precision): the scalar followed by the unit symbol. -/
def qFormat (x : Quantity) : List Char :=
  x.number.display ++ x.tag.symbol

/-- The error string `format!("Expect end with '{}'", U::name())` of
src/unit/mod.rs. -/
def expectEndErr (sym : List Char) : List Char :=
  "Expect end with '".data ++ sym ++ "'".data

/-- `impl FromStr for UnitNumber` (src/unit/mod.rs lines 77-90): trim,
require the tag's symbol as suffix, strip it and parse the head as a
scalar; otherwise fail naming the expected symbol. -/
def qParse (u : UTag) (s : List Char) : Except (List Char) Quantity :=
  let t := trimList s
  if u.symbol <:+ t then
    match Number.fromStr (dropSuffixList t u.symbol) with
    | .ok n => .ok ⟨n, u⟩
    | .error e => .error e
  else .error (expectEndErr u.symbol)

/-- Floating values with NaN and signed infinities: the fragment of IEEE
`f64` behaviour (exact finite arithmetic) the NaN claim needs. -/
inductive FP where
  | finite (q : ℚ)
  | pinf
  | ninf
  | nan
  deriving DecidableEq, Repr

/-- `f64::is_nan`. -/
def FP.isNan : FP → Bool
  | .nan => true
  | _ => false

/-- `f64::abs` on the FP model. -/
def FP.abs : FP → FP
  | .finite q => .finite |q|
  | .pinf => .pinf
  | .ninf => .pinf
  | .nan => .nan

/-- `x >= c` for a finite constant `c`: false whenever `x` is NaN. -/
def FP.geC (x : FP) (c : ℚ) : Bool :=
  match x with
  | .finite q => c ≤ q
  | .pinf => true
  | .ninf => false
  | .nan => false

/-- Multiplication by a positive finite constant (the prefix factors). -/
def FP.mulPos (x : FP) (c : ℚ) : FP :=
  match x with
  | .finite q => .finite (q * c)
  | .pinf => .pinf
  | .ninf => .ninf
  | .nan => .nan

/-- Division by a positive finite constant (the prefix factors). -/
def FP.divPos (x : FP) (c : ℚ) : FP :=
  match x with
  | .finite q => .finite (q / c)
  | .pinf => .pinf
  | .ninf => .ninf
  | .nan => .nan

/-- IEEE division on the FP model: `0/0` and `inf/inf` are NaN, division
of a nonzero finite value by zero is a signed infinity. -/
def FP.div : FP → FP → FP
  | .nan, _ => .nan
  | _, .nan => .nan
  | .finite a, .finite b =>
    if b = 0 then
      if a = 0 then .nan else if 0 < a then .pinf else .ninf
    else .finite (a / b)
  | .finite _, .pinf => .finite 0
  | .finite _, .ninf => .finite 0
  | .pinf, .finite b => if 0 ≤ b then .pinf else .ninf
  | .ninf, .finite b => if 0 ≤ b then .ninf else .pinf
  | .pinf, .pinf => .nan
  | .pinf, .ninf => .nan
  | .ninf, .pinf => .nan
  | .ninf, .ninf => .nan

/-- `f64::partial_cmp`: `none` exactly when an operand is NaN. -/
def FP.pcmp : FP → FP → Option Ordering
  | .nan, _ => Option.none
  | _, .nan => Option.none
  | .finite a, .finite b => some (compare a b)
  | .finite _, .pinf => some .lt
  | .finite _, .ninf => some .gt
  | .pinf, .finite _ => some .gt
  | .ninf, .finite _ => some .lt
  | .pinf, .pinf => some .eq
  | .pinf, .ninf => some .gt
  | .ninf, .pinf => some .lt
  | .ninf, .ninf => some .eq

/-- `Number` over the FP value model. -/
structure NumberF where
  value : FP
  suffix : Suffix
  deriving DecidableEq, Repr

/-- `Number::to_f64` over FP: mantissa times the (positive) factor. -/
def NumberF.to_f64 (n : NumberF) : FP :=
  n.value.mulPos n.suffix.factor

/-- The `Number::from_f64` scan over FP: every comparison against a NaN
absolute value is false, so a NaN input falls through to prefix none. -/
def fromF64GoF (val : FP) : List (Suffix × ℚ) → NumberF
  | [] => ⟨val, Suffix.none⟩
  | (s, f) :: rest =>
    if val.abs.geC f then ⟨val.divPos f, s⟩ else fromF64GoF val rest

/-- `Number::from_f64` over FP. -/
def NumberF.from_f64 (val : FP) : NumberF :=
  fromF64GoF val PREFIX_VALUE_TABLE

/-- `impl Div for Number` over FP: divide the absolute values (IEEE
semantics, so `0/0` is NaN) and renormalize. -/
def NumberF.div (a b : NumberF) : NumberF :=
  NumberF.from_f64 (FP.div a.to_f64 b.to_f64)

/-- `impl PartialOrd for Number` over FP. -/
def NumberF.partialCmp (a b : NumberF) : Option Ordering :=
  FP.pcmp a.to_f64 b.to_f64

/-- `impl Ord for Number` over FP: `partial_cmp(..).unwrap()`; the `none`
result models the panic of unwrapping `None`. -/
def NumberF.cmpChecked (a b : NumberF) : Option Ordering :=
  NumberF.partialCmp a b

/-- `UnitNumber` over the FP value model (tag plus FP scalar). -/
structure QuantityF where
  number : NumberF
  tag : UTag
  deriving DecidableEq, Repr

/-- `impl Ord for UnitNumber` (src/unit/ops.rs lines 175-179): delegate to
the scalar's `partial_cmp` and unwrap; `none` models the panic. -/
def QuantityF.cmpChecked (x y : QuantityF) : Option Ordering :=
  NumberF.partialCmp x.number y.number

/-- Closed form of the normalization scan: `from_f64` as nested boundary
tests, in descending factor order. -/
theorem from_f64_eq (v : ℚ) :
    Number.from_f64 v =
      if (10 : ℚ) ^ 9 ≤ |v| then ⟨v / 10 ^ 9, Suffix.giga⟩
      else if (10 : ℚ) ^ 6 ≤ |v| then ⟨v / 10 ^ 6, Suffix.mega⟩
      else if (10 : ℚ) ^ 3 ≤ |v| then ⟨v / 10 ^ 3, Suffix.kilo⟩
      else if (1 : ℚ) ≤ |v| then ⟨v / 1, Suffix.none⟩
      else if (1 : ℚ) / 10 ^ 3 ≤ |v| then ⟨v / (1 / 10 ^ 3), Suffix.milli⟩
      else if (1 : ℚ) / 10 ^ 6 ≤ |v| then ⟨v / (1 / 10 ^ 6), Suffix.micro⟩
      else if (1 : ℚ) / 10 ^ 9 ≤ |v| then ⟨v / (1 / 10 ^ 9), Suffix.nano⟩
      else if (1 : ℚ) / 10 ^ 12 ≤ |v| then ⟨v / (1 / 10 ^ 12), Suffix.pico⟩
      else ⟨v, Suffix.none⟩ := by
  simp only [Number.from_f64, PREFIX_VALUE_TABLE, fromF64Go]

/-- C1: `from_f64` picks the largest-factor prefix, scanned in descending
factor order, whose factor is at most the absolute value; the mantissa is
the value divided by the chosen factor; when no table entry qualifies
(including zero) the result keeps the value itself with prefix none.
Boundary instances: 999.999 stays prefix none, 1000 becomes kilo, 0 stays
prefix none with mantissa 0. -/
theorem from_f64_normalizes :
    (∀ v : ℚ,
      (Number.from_f64 v).value = v / (Number.from_f64 v).suffix.factor
      ∧ ((Number.from_f64 v).suffix.factor ≤ |v|
          ∨ (Number.from_f64 v).suffix = Suffix.none)
      ∧ (∀ s : Suffix, s.factor ≤ |v| → s.factor ≤ (Number.from_f64 v).suffix.factor)
      ∧ ((∀ s : Suffix, ¬ s.factor ≤ |v|) → Number.from_f64 v = ⟨v, Suffix.none⟩))
    ∧ Number.from_f64 (999999 / 1000) = ⟨999999 / 1000, Suffix.none⟩
    ∧ Number.from_f64 1000 = ⟨1, Suffix.kilo⟩
    ∧ Number.from_f64 0 = ⟨0, Suffix.none⟩ := by
  refine ⟨fun v => ?_, ?_, ?_, ?_⟩
  · rw [from_f64_eq]
    split_ifs with h1 h2 h3 h4 h5 h6 h7 h8
    · exact ⟨rfl, Or.inl h1,
        fun s hs => by cases s <;> simp only [Suffix.factor] at hs ⊢ <;> linarith,
        fun hnone => absurd h1 (hnone Suffix.giga)⟩
    · exact ⟨rfl, Or.inl h2,
        fun s hs => by cases s <;> simp only [Suffix.factor] at hs ⊢ <;> linarith,
        fun hnone => absurd h2 (hnone Suffix.mega)⟩
    · exact ⟨rfl, Or.inl h3,
        fun s hs => by cases s <;> simp only [Suffix.factor] at hs ⊢ <;> linarith,
        fun hnone => absurd h3 (hnone Suffix.kilo)⟩
    · exact ⟨rfl, Or.inl h4,
        fun s hs => by cases s <;> simp only [Suffix.factor] at hs ⊢ <;> linarith,
        fun hnone => absurd h4 (hnone Suffix.none)⟩
    · exact ⟨rfl, Or.inl h5,
        fun s hs => by cases s <;> simp only [Suffix.factor] at hs ⊢ <;> linarith,
        fun hnone => absurd h5 (hnone Suffix.milli)⟩
    · exact ⟨rfl, Or.inl h6,
        fun s hs => by cases s <;> simp only [Suffix.factor] at hs ⊢ <;> linarith,
        fun hnone => absurd h6 (hnone Suffix.micro)⟩
    · exact ⟨rfl, Or.inl h7,
        fun s hs => by cases s <;> simp only [Suffix.factor] at hs ⊢ <;> linarith,
        fun hnone => absurd h7 (hnone Suffix.nano)⟩
    · exact ⟨rfl, Or.inl h8,
        fun s hs => by cases s <;> simp only [Suffix.factor] at hs ⊢ <;> linarith,
        fun hnone => absurd h8 (hnone Suffix.pico)⟩
    · exact ⟨(div_one v).symm, Or.inr rfl,
        fun s hs => by cases s <;> simp only [Suffix.factor] at hs ⊢ <;> linarith,
        fun _ => rfl⟩
  · rw [from_f64_eq]
    have habs : |((999999 : ℚ) / 1000)| = 999999 / 1000 := abs_of_pos (by norm_num)
    rw [habs]
    norm_num
  · rw [from_f64_eq]
    have habs : |(1000 : ℚ)| = 1000 := abs_of_pos (by norm_num)
    rw [habs]
    norm_num [Number.mk.injEq]
  · rw [from_f64_eq]
    norm_num

/-- C2: every binary arithmetic operator on scalars, including the mixed
scalar-with-float forms, converts both operands to the absolute value,
applies the float operator, and renormalizes through `from_f64`. -/
theorem arithmetic_renormalizes :
    (∀ a b : Number, Number.add a b = Number.from_f64 (a.to_f64 + b.to_f64))
    ∧ (∀ a b : Number, Number.sub a b = Number.from_f64 (a.to_f64 - b.to_f64))
    ∧ (∀ a b : Number, Number.mul a b = Number.from_f64 (a.to_f64 * b.to_f64))
    ∧ (∀ a b : Number, Number.div a b = Number.from_f64 (a.to_f64 / b.to_f64))
    ∧ (∀ (a : Number) (x : ℚ), Number.addF a x = Number.from_f64 (a.to_f64 + x))
    ∧ (∀ (a : Number) (x : ℚ), Number.subF a x = Number.from_f64 (a.to_f64 - x))
    ∧ (∀ (a : Number) (x : ℚ), Number.mulF a x = Number.from_f64 (a.to_f64 * x))
    ∧ (∀ (a : Number) (x : ℚ), Number.divF a x = Number.from_f64 (a.to_f64 / x))
    ∧ (∀ (x : ℚ) (b : Number), Number.fAdd x b = Number.from_f64 (x + b.to_f64))
    ∧ (∀ (x : ℚ) (b : Number), Number.fSub x b = Number.from_f64 (x - b.to_f64))
    ∧ (∀ (x : ℚ) (b : Number), Number.fMul x b = Number.from_f64 (x * b.to_f64))
    ∧ (∀ (x : ℚ) (b : Number), Number.fDiv x b = Number.from_f64 (x / b.to_f64)) :=
  ⟨fun _ _ => rfl, fun _ _ => rfl, fun _ _ => rfl, fun _ _ => rfl,
   fun _ _ => rfl, fun _ _ => rfl, fun _ _ => rfl, fun _ _ => rfl,
   fun _ _ => rfl, fun _ _ => rfl, fun _ _ => rfl, fun _ _ => rfl⟩

/-- C6 counterexample: 1000 with prefix none and 1 with prefix kilo have
the same absolute value, yet the derived structural equality of `Number`
distinguishes them, so equality on `Number` is not value-based. -/
theorem eqStruct_not_value_based :
    Number.to_f64 ⟨1000, Suffix.none⟩ = Number.to_f64 ⟨1, Suffix.kilo⟩
    ∧ ¬ Number.eqStruct ⟨1000, Suffix.none⟩ ⟨1, Suffix.kilo⟩ := by
  constructor
  · norm_num [Number.to_f64, Suffix.factor]
  · rintro ⟨hv, -⟩
    norm_num at hv

/-- C6 amended: ordering comparisons on `Number` are value-based — any two
scalars with equal absolute value compare equal under `partial_cmp` and
`cmp` (so 1000 with prefix none and 1 with prefix kilo compare equal) —
but the derived `==` equality is structural and distinguishes scalars with
different mantissa/prefix representation of the same value. -/
theorem ordering_value_based (a b : Number) (h : a.to_f64 = b.to_f64) :
    Number.partialCmp a b = some Ordering.eq ∧ Number.cmp a b = Ordering.eq := by
  have hc : compare a.to_f64 b.to_f64 = Ordering.eq := compare_eq_iff_eq.mpr h
  exact ⟨by simp [Number.partialCmp, hc], hc⟩

/-- Witness for C6 at the claim's own example pair. -/
theorem ordering_value_based_witness :
    Number.partialCmp ⟨1000, Suffix.none⟩ ⟨1, Suffix.kilo⟩ = some Ordering.eq
    ∧ Number.cmp ⟨1000, Suffix.none⟩ ⟨1, Suffix.kilo⟩ = Ordering.eq :=
  ordering_value_based ⟨1000, Suffix.none⟩ ⟨1, Suffix.kilo⟩
    (by norm_num [Number.to_f64, Suffix.factor])

/-- C7 counterexample: adding 3.3 kilo and 2.2 micro does not yield prefix
none — the sum 3300.0000022 is at least 1000, so normalization picks kilo. -/
theorem add_kilo_micro_not_none :
    (Number.add ⟨33 / 10, Suffix.kilo⟩ ⟨11 / 5, Suffix.micro⟩).suffix
      ≠ Suffix.none := by
  have : Number.add ⟨33 / 10, Suffix.kilo⟩ ⟨11 / 5, Suffix.micro⟩
      = ⟨33000000022 / 10 ^ 10, Suffix.kilo⟩ := by
    show Number.from_f64 _ = _
    rw [from_f64_eq]
    have hv : Number.to_f64 ⟨33 / 10, Suffix.kilo⟩
        + Number.to_f64 ⟨11 / 5, Suffix.micro⟩ = 16500000011 / 5000000 := by
      norm_num [Number.to_f64, Suffix.factor]
    rw [hv]
    have habs : |((16500000011 : ℚ) / 5000000)| = 16500000011 / 5000000 :=
      abs_of_pos (by norm_num)
    rw [habs]
    norm_num [Number.mk.injEq]
  rw [this]
  simp

/-- C7 amended: 3.3 kilo plus 2.2 micro renormalizes to absolute value
3300.0000022, stored with prefix kilo and mantissa 3.3000000022 (kilo
qualifies because the sum is at least 1000). -/
theorem add_kilo_micro_renormalizes :
    Number.add ⟨33 / 10, Suffix.kilo⟩ ⟨11 / 5, Suffix.micro⟩
      = ⟨33000000022 / 10 ^ 10, Suffix.kilo⟩
    ∧ (Number.add ⟨33 / 10, Suffix.kilo⟩ ⟨11 / 5, Suffix.micro⟩).to_f64
      = 33000000022 / 10 ^ 7 := by
  have heq : Number.add ⟨33 / 10, Suffix.kilo⟩ ⟨11 / 5, Suffix.micro⟩
      = ⟨33000000022 / 10 ^ 10, Suffix.kilo⟩ := by
    show Number.from_f64 _ = _
    rw [from_f64_eq]
    have hv : Number.to_f64 ⟨33 / 10, Suffix.kilo⟩
        + Number.to_f64 ⟨11 / 5, Suffix.micro⟩ = 16500000011 / 5000000 := by
      norm_num [Number.to_f64, Suffix.factor]
    rw [hv]
    have habs : |((16500000011 : ℚ) / 5000000)| = 16500000011 / 5000000 :=
      abs_of_pos (by norm_num)
    rw [habs]
    norm_num [Number.mk.injEq]
  refine ⟨heq, ?_⟩
  rw [heq]
  norm_num [Number.to_f64, Suffix.factor]

/-- A one-character suffix match is a condition on the last character. -/
theorem singleton_suffix (c : Char) (t : List Char) :
    [c] <:+ t ↔ t.getLast? = some c := by
  constructor
  · rintro ⟨pre, rfl⟩
    exact List.getLast?_concat pre
  · intro h
    have hne : t ≠ [] := by
      intro he
      rw [he] at h
      simp at h
    rw [List.getLast?_eq_getLast t hne] at h
    have hc : t.getLast hne = c := by
      injection h
    refine ⟨t.dropLast, ?_⟩
    rw [← hc]
    exact List.dropLast_append_getLast hne

/-- `dropWhile isWhitespace` is the identity on whitespace-free lists. -/
theorem dropWhile_ws_eq_self (m : List Char)
    (hm : ∀ c ∈ m, c.isWhitespace = false) :
    m.dropWhile Char.isWhitespace = m := by
  cases m with
  | nil => rfl
  | cons a t => rw [List.dropWhile_cons, hm a (List.mem_cons_self a t)]; simp

/-- Trimming is the identity on whitespace-free strings. -/
theorem trimList_eq_self (l : List Char)
    (h : ∀ c ∈ l, c.isWhitespace = false) :
    trimList l = l := by
  unfold trimList
  rw [dropWhile_ws_eq_self l h]
  rw [dropWhile_ws_eq_self l.reverse (fun c hc => h c (List.mem_reverse.mp hc))]
  exact List.reverse_reverse l

/-- Stripping an appended suffix recovers the head. -/
theorem dropSuffixList_append (a b : List Char) :
    dropSuffixList (a ++ b) b = a := by
  unfold dropSuffixList
  simp

/-- The tail-match loop on a hit: whichever table entry matches the last
character wins (the symbols are pairwise distinct characters, so at most
one entry can match and the priority order decides only the K/k pair,
which share the output prefix). -/
theorem fromStrGo_hit (t : List Char) (suf : Suffix) (c : Char)
    (hmem : (suf, [c]) ∈ PREFIX_TABLE) (hm : [c] <:+ t) :
    fromStrGo t PREFIX_TABLE =
      match parseFloat (trimList (dropSuffixList t [c])) with
      | some v => Except.ok ⟨v, suf⟩
      | none => Except.error (parseNumErr (dropSuffixList t [c])) := by
  have hlast : t.getLast? = some c := (singleton_suffix c t).mp hm
  simp only [PREFIX_TABLE, List.mem_cons, List.not_mem_nil, or_false] at hmem
  rcases hmem with h | h | h | h | h | h | h | h <;>
    (rw [Prod.mk.injEq] at h
     obtain ⟨rfl, hc⟩ := h
     simp only [List.cons.injEq, and_true] at hc
     subst hc) <;>
    simp [fromStrGo, singleton_suffix, hlast]

/-- The tail-match loop when no table symbol matches: fall through to the
whole string with prefix none. -/
theorem fromStrGo_miss (t : List Char)
    (h : ∀ p ∈ PREFIX_TABLE, ¬ p.2 <:+ t) :
    fromStrGo t PREFIX_TABLE =
      match parseFloat t with
      | some v => Except.ok ⟨v, Suffix.none⟩
      | none => Except.error (parseNumErr t) := by
  have h1 := h (Suffix.giga, ['G']) (by simp [PREFIX_TABLE])
  have h2 := h (Suffix.mega, ['M']) (by simp [PREFIX_TABLE])
  have h3 := h (Suffix.kilo, ['K']) (by simp [PREFIX_TABLE])
  have h4 := h (Suffix.kilo, ['k']) (by simp [PREFIX_TABLE])
  have h5 := h (Suffix.milli, ['m']) (by simp [PREFIX_TABLE])
  have h6 := h (Suffix.micro, ['u']) (by simp [PREFIX_TABLE])
  have h7 := h (Suffix.nano, ['n']) (by simp [PREFIX_TABLE])
  have h8 := h (Suffix.pico, ['p']) (by simp [PREFIX_TABLE])
  simp [fromStrGo, h1, h2, h3, h4, h5, h6, h7, h8]

/-- `parseFloat` on the literal "3.3". -/
theorem parseFloat_33 : parseFloat "3.3".data = some ((33 : ℚ) / 10) := by
  have h : parseFloat "3.3".data = some (((3 : ℕ) : ℚ) + ((3 : ℕ) : ℚ) / 10 ^ 1) := rfl
  rw [h]
  norm_num

/-- `parseFloat` on the literal "2". -/
theorem parseFloat_2 : parseFloat "2".data = some ((2 : ℕ) : ℚ) := rfl

/-- `parseFloat` on the literal "12". -/
theorem parseFloat_12 : parseFloat "12".data = some ((12 : ℕ) : ℚ) := rfl

/-- `parseFloat` on the literal "6". -/
theorem parseFloat_6 : parseFloat "6".data = some ((6 : ℕ) : ℚ) := rfl

/-- C3: scalar parsing trims the input, tries the prefix symbols of
`PREFIX_TABLE` as tail matches in the fixed priority order G, M, K, k, m,
u, n, p (the matching entry wins; both K and k map to kilo), and falls
back to parsing the whole trimmed string with prefix none when no symbol
matches.  Parsing "3.3K" yields mantissa 3.3 with prefix kilo, of absolute
value 3300. -/
theorem fromStr_tail_match :
    (∀ (s : List Char) (suf : Suffix) (c : Char),
      (suf, [c]) ∈ PREFIX_TABLE → [c] <:+ trimList s →
        Number.fromStr s =
          match parseFloat (trimList (dropSuffixList (trimList s) [c])) with
          | some v => Except.ok ⟨v, suf⟩
          | none => Except.error (parseNumErr (dropSuffixList (trimList s) [c])))
    ∧ (∀ s : List Char, (∀ p ∈ PREFIX_TABLE, ¬ p.2 <:+ trimList s) →
        Number.fromStr s =
          match parseFloat (trimList s) with
          | some v => Except.ok ⟨v, Suffix.none⟩
          | none => Except.error (parseNumErr (trimList s)))
    ∧ PREFIX_TABLE =
        [(Suffix.giga, ['G']), (Suffix.mega, ['M']), (Suffix.kilo, ['K']),
         (Suffix.kilo, ['k']), (Suffix.milli, ['m']), (Suffix.micro, ['u']),
         (Suffix.nano, ['n']), (Suffix.pico, ['p'])]
    ∧ Number.fromStr "3.3K".data = Except.ok ⟨33 / 10, Suffix.kilo⟩
    ∧ Number.to_f64 ⟨33 / 10, Suffix.kilo⟩ = 3300
    ∧ Number.fromStr "2k".data = Except.ok ⟨(2 : ℕ), Suffix.kilo⟩ := by
  refine ⟨fun s suf c hmem hm => fromStrGo_hit (trimList s) suf c hmem hm,
    fun s h => fromStrGo_miss (trimList s) h, rfl, ?_, ?_, ?_⟩
  · have ht : trimList "3.3K".data = "3.3K".data := by decide
    have hhit := fromStrGo_hit "3.3K".data Suffix.kilo 'K'
      (by simp [PREFIX_TABLE]) (by decide)
    have hdrop : dropSuffixList "3.3K".data ['K'] = "3.3".data := by decide
    have htrim : trimList "3.3".data = "3.3".data := by decide
    unfold Number.fromStr
    rw [ht, hhit, hdrop, htrim, parseFloat_33]
  · norm_num [Number.to_f64, Suffix.factor]
  · have ht : trimList "2k".data = "2k".data := by decide
    have hhit := fromStrGo_hit "2k".data Suffix.kilo 'k'
      (by simp [PREFIX_TABLE]) (by decide)
    have hdrop : dropSuffixList "2k".data ['k'] = "2".data := by decide
    have htrim : trimList "2".data = "2".data := by decide
    unfold Number.fromStr
    rw [ht, hhit, hdrop, htrim, parseFloat_2]

/-- C8: parsing returns explicit typed errors.  A quantity parse fails
with the error naming the expected unit symbol whenever the trimmed input
does not end with that symbol ("5.6A" as a Voltage fails); a scalar parse
fails with the invalid-float error whenever the remaining numeric head is
not a valid float literal ("hello" fails), with or without a matched
prefix symbol. -/
theorem parse_typed_errors :
    (∀ (u : UTag) (s : List Char), ¬ (u.symbol <:+ trimList s) →
        qParse u s = Except.error (expectEndErr u.symbol))
    ∧ qParse UTag.voltage "5.6A".data = Except.error "Expect end with 'V'".data
    ∧ (∀ (s : List Char) (suf : Suffix) (c : Char),
        (suf, [c]) ∈ PREFIX_TABLE → [c] <:+ trimList s →
        parseFloat (trimList (dropSuffixList (trimList s) [c])) = Option.none →
        Number.fromStr s =
          Except.error (parseNumErr (dropSuffixList (trimList s) [c])))
    ∧ (∀ s : List Char, (∀ p ∈ PREFIX_TABLE, ¬ p.2 <:+ trimList s) →
        parseFloat (trimList s) = Option.none →
        Number.fromStr s = Except.error (parseNumErr (trimList s)))
    ∧ Number.fromStr "hello".data =
        Except.error "Parse number 'hello' error for 'invalid float literal'".data := by
  refine ⟨fun u s h => ?_, ?_, fun s suf c hmem hm hp => ?_, fun s h hp => ?_, ?_⟩
  · simp [qParse, h]
  · have h : ¬ (UTag.voltage.symbol <:+ trimList "5.6A".data) := by decide
    simp only [qParse]
    rw [if_neg h]
    exact congrArg Except.error (by decide)
  · have := fromStrGo_hit (trimList s) suf c hmem hm
    unfold Number.fromStr
    rw [this, hp]
  · have := fromStrGo_miss (trimList s) h
    unfold Number.fromStr
    rw [this, hp]
  · have ht : trimList "hello".data = "hello".data := by decide
    have hmiss := fromStrGo_miss "hello".data (by decide)
    unfold Number.fromStr
    rw [ht, hmiss]
    have hp : parseFloat "hello".data = Option.none := by decide
    rw [hp]
    exact congrArg Except.error (by decide)

/-- Renormalizing preserves the absolute value: `to_f64` undoes
`from_f64` exactly (every table factor is nonzero). -/
theorem to_f64_from_f64 (q : ℚ) : (Number.from_f64 q).to_f64 = q := by
  rw [from_f64_eq]
  split_ifs <;> simp [Number.to_f64, Suffix.factor]

/-- A successful scalar parse with no prefix-symbol tail match. -/
theorem fromStr_plain (s : List Char)
    (hnm : ∀ p ∈ PREFIX_TABLE, ¬ p.2 <:+ trimList s) (q : ℚ)
    (hp : parseFloat (trimList s) = some q) :
    Number.fromStr s = Except.ok ⟨q, Suffix.none⟩ := by
  unfold Number.fromStr
  rw [fromStrGo_miss (trimList s) hnm, hp]

/-- A successful quantity parse: the unit symbol matches the tail and the
head parses as a scalar. -/
theorem qParse_ok (u : UTag) (s : List Char) (n : Number)
    (h : u.symbol <:+ trimList s)
    (hn : Number.fromStr (dropSuffixList (trimList s) u.symbol) = Except.ok n) :
    qParse u s = Except.ok ⟨n, u⟩ := by
  simp only [qParse]
  rw [if_pos h, hn]

/-- `from_f64` at the absolute value 2. -/
theorem from_f64_two : Number.from_f64 2 = ⟨2, Suffix.none⟩ := by
  rw [from_f64_eq]
  rw [show |(2 : ℚ)| = 2 from abs_of_pos (by norm_num)]
  norm_num

/-- C4: multiplying a Resistance by a Current dispatches to the registered
rule, yielding a Voltage whose absolute value is the product of the
operands' absolute values; dividing that Voltage by the Current dispatches
to the inverse rule and recovers the Resistance value exactly; concretely,
the Voltage parsed from "12V" divided by the Resistance parsed from "6Ω"
is a Current of absolute value 2 that formats as "2A". -/
theorem ohms_law (nR nI : Number) (hR : 0 < nR.to_f64) (hI : 0 < nI.to_f64) :
    qMul ⟨nR, UTag.resistance⟩ ⟨nI, UTag.current⟩
      = some ⟨Number.mul nR nI, UTag.voltage⟩
    ∧ (Number.mul nR nI).to_f64 = nR.to_f64 * nI.to_f64
    ∧ qDiv ⟨Number.mul nR nI, UTag.voltage⟩ ⟨nI, UTag.current⟩
      = QDivResult.quantity ⟨Number.div (Number.mul nR nI) nI, UTag.resistance⟩
    ∧ (Number.div (Number.mul nR nI) nI).to_f64 = nR.to_f64
    ∧ qParse UTag.voltage "12V".data
      = Except.ok ⟨⟨12, Suffix.none⟩, UTag.voltage⟩
    ∧ qParse UTag.resistance "6Ω".data
      = Except.ok ⟨⟨6, Suffix.none⟩, UTag.resistance⟩
    ∧ qDiv ⟨⟨12, Suffix.none⟩, UTag.voltage⟩ ⟨⟨6, Suffix.none⟩, UTag.resistance⟩
      = QDivResult.quantity ⟨⟨2, Suffix.none⟩, UTag.current⟩
    ∧ Number.to_f64 ⟨2, Suffix.none⟩ = 2
    ∧ qFormat ⟨⟨2, Suffix.none⟩, UTag.current⟩ = "2A".data := by
  have hmulT : mulOutput UTag.resistance UTag.current = some UTag.voltage := by decide
  have hdivT : divOutput UTag.voltage UTag.current = some UTag.resistance := by decide
  have hdivVR : divOutput UTag.voltage UTag.resistance = some UTag.current := by decide
  have hIne : nI.to_f64 ≠ 0 := ne_of_gt hI
  have hmulV : (Number.mul nR nI).to_f64 = nR.to_f64 * nI.to_f64 :=
    to_f64_from_f64 _
  refine ⟨?_, hmulV, ?_, ?_, ?_, ?_, ?_, ?_, ?_⟩
  · simp [qMul, hmulT]
  · simp only [qDiv]
    rw [if_neg (by decide), hdivT]
  · show (Number.from_f64 _).to_f64 = _
    rw [to_f64_from_f64, hmulV, mul_div_assoc, div_self hIne, mul_one]
  · refine qParse_ok UTag.voltage "12V".data ⟨12, Suffix.none⟩ (by decide) ?_
    have h12 : Number.fromStr "12".data = Except.ok ⟨((12 : ℕ) : ℚ), Suffix.none⟩ :=
      fromStr_plain "12".data (by decide) _ (by rw [show trimList "12".data = "12".data from by decide]; exact parseFloat_12)
    rw [show dropSuffixList (trimList "12V".data) UTag.voltage.symbol = "12".data from by decide, h12]
    norm_num
  · refine qParse_ok UTag.resistance "6Ω".data ⟨6, Suffix.none⟩ (by decide) ?_
    have h6 : Number.fromStr "6".data = Except.ok ⟨((6 : ℕ) : ℚ), Suffix.none⟩ :=
      fromStr_plain "6".data (by decide) _ (by rw [show trimList "6".data = "6".data from by decide]; exact parseFloat_6)
    rw [show dropSuffixList (trimList "6Ω".data) UTag.resistance.symbol = "6".data from by decide, h6]
    norm_num
  · simp only [qDiv]
    rw [if_neg (by decide), hdivVR]
    have hq : Number.div ⟨12, Suffix.none⟩ ⟨6, Suffix.none⟩ = ⟨2, Suffix.none⟩ := by
      unfold Number.div
      rw [show Number.to_f64 ⟨12, Suffix.none⟩ / Number.to_f64 ⟨6, Suffix.none⟩
          = 2 from by norm_num [Number.to_f64, Suffix.factor]]
      exact from_f64_two
    rw [hq]
  · norm_num [Number.to_f64, Suffix.factor]
  · decide

/-- Witness for C4 at Resistance 5 and Current 2. -/
theorem ohms_law_witness :
    qMul ⟨⟨5, Suffix.none⟩, UTag.resistance⟩ ⟨⟨2, Suffix.none⟩, UTag.current⟩
      = some ⟨Number.mul ⟨5, Suffix.none⟩ ⟨2, Suffix.none⟩, UTag.voltage⟩
    ∧ (Number.div (Number.mul ⟨5, Suffix.none⟩ ⟨2, Suffix.none⟩) ⟨2, Suffix.none⟩).to_f64
      = Number.to_f64 ⟨5, Suffix.none⟩ := by
  have h := ohms_law ⟨5, Suffix.none⟩ ⟨2, Suffix.none⟩
    (by norm_num [Number.to_f64, Suffix.factor])
    (by norm_num [Number.to_f64, Suffix.factor])
  exact ⟨h.1, h.2.2.2.1⟩

/-- C9: dividing two quantities of the same tag always takes the blanket
same-unit impl, yielding a bare scalar (never a quantity) equal to the
quotient of the absolute values; for a nonzero quantity, dividing it by
itself gives absolute value 1. -/
theorem same_unit_div (u : UTag) (m n : Number) (h : n.to_f64 ≠ 0) :
    qDiv ⟨m, u⟩ ⟨n, u⟩ = QDivResult.scalar (Number.div m n)
    ∧ (Number.div m n).to_f64 = m.to_f64 / n.to_f64
    ∧ (Number.div n n).to_f64 = 1 := by
  refine ⟨by simp [qDiv], to_f64_from_f64 _, ?_⟩
  show (Number.from_f64 _).to_f64 = _
  rw [to_f64_from_f64, div_self h]

/-- Witness for C9 at a Time quantity of value 100. -/
theorem same_unit_div_witness :
    qDiv ⟨⟨100, Suffix.none⟩, UTag.time⟩ ⟨⟨100, Suffix.none⟩, UTag.time⟩
      = QDivResult.scalar (Number.div ⟨100, Suffix.none⟩ ⟨100, Suffix.none⟩)
    ∧ (Number.div ⟨100, Suffix.none⟩ ⟨100, Suffix.none⟩).to_f64 = 1 := by
  have h := same_unit_div UTag.time ⟨100, Suffix.none⟩ ⟨100, Suffix.none⟩
    (by norm_num [Number.to_f64, Suffix.factor])
  exact ⟨h.1, h.2.2⟩

/-- `partial_cmp` on FP values is defined exactly away from NaN. -/
theorem pcmp_some (x y : FP) (hx : x.isNan = false) (hy : y.isNan = false) :
    ∃ o, FP.pcmp x y = some o := by
  cases x <;> cases y <;> simp_all [FP.isNan, FP.pcmp]

/-- `partial_cmp` on FP values is undefined on NaN operands. -/
theorem pcmp_none (x y : FP) (h : x.isNan = true ∨ y.isNan = true) :
    FP.pcmp x y = Option.none := by
  cases x <;> cases y <;> simp_all [FP.isNan, FP.pcmp]

/-- C10: total-order comparison on scalars and on same-tag quantities
returns an ordering whenever neither absolute value is NaN, and unwraps a
`None` comparison — a panic, modelled as the `none` result — whenever an
operand is NaN; NaN is reachable through ordinary arithmetic, since
dividing the zero scalar by itself produces a NaN-valued scalar rather
than failing. -/
theorem cmp_nan_panics :
    (∀ a b : NumberF, a.to_f64.isNan = false → b.to_f64.isNan = false →
        ∃ o, NumberF.cmpChecked a b = some o)
    ∧ (∀ a b : NumberF, a.to_f64.isNan = true ∨ b.to_f64.isNan = true →
        NumberF.cmpChecked a b = Option.none)
    ∧ (∀ x y : QuantityF,
        x.number.to_f64.isNan = false → y.number.to_f64.isNan = false →
        ∃ o, QuantityF.cmpChecked x y = some o)
    ∧ (∀ x y : QuantityF,
        x.number.to_f64.isNan = true ∨ y.number.to_f64.isNan = true →
        QuantityF.cmpChecked x y = Option.none)
    ∧ NumberF.div ⟨FP.finite 0, Suffix.none⟩ ⟨FP.finite 0, Suffix.none⟩
        = ⟨FP.nan, Suffix.none⟩
    ∧ (NumberF.div ⟨FP.finite 0, Suffix.none⟩
        ⟨FP.finite 0, Suffix.none⟩).to_f64.isNan = true := by
  have hdiv : NumberF.div ⟨FP.finite 0, Suffix.none⟩ ⟨FP.finite 0, Suffix.none⟩
      = ⟨FP.nan, Suffix.none⟩ := by
    show NumberF.from_f64 (FP.div ((FP.finite 0).mulPos (Suffix.factor .none))
      ((FP.finite 0).mulPos (Suffix.factor .none))) = _
    rw [show (FP.finite 0).mulPos (Suffix.factor .none) = FP.finite 0 from by
      simp [FP.mulPos, Suffix.factor]]
    rw [show FP.div (FP.finite 0) (FP.finite 0) = FP.nan from by simp [FP.div]]
    simp [NumberF.from_f64, PREFIX_VALUE_TABLE, fromF64GoF, FP.abs, FP.geC]
  refine ⟨fun a b hx hy => pcmp_some _ _ hx hy,
    fun a b h => pcmp_none _ _ h,
    fun x y hx hy => pcmp_some _ _ hx hy,
    fun x y h => pcmp_none _ _ h,
    hdiv, ?_⟩
  rw [hdiv]
  rfl

/-- A decimal digit character is not whitespace. -/
theorem digit_not_ws (c : Char) (h : c.isDigit = true) : c.isWhitespace = false := by
  simp only [Char.isDigit, Bool.and_eq_true, decide_eq_true_eq] at h
  obtain ⟨h1, h2⟩ := h
  simp only [Char.isWhitespace, Bool.or_eq_true, decide_eq_true_eq]
  simp only [Bool.or_eq_false_iff, decide_eq_false_iff_not]
  refine ⟨⟨⟨?_, ?_⟩, ?_⟩, ?_⟩ <;> intro he <;> subst he <;> revert h1 h2 <;> decide

/-- A decimal digit character is not the plus sign. -/
theorem digit_ne_plus (c : Char) (h : c.isDigit = true) : c ≠ '+' := by
  intro he
  subst he
  revert h
  decide

/-- A decimal digit character is not the minus sign. -/
theorem digit_ne_minus (c : Char) (h : c.isDigit = true) : c ≠ '-' := by
  intro he
  subst he
  revert h
  decide

/-- The digit accumulator as a closed form: folding over a block shifts
the accumulator by the block's length. -/
theorem digitsVal_foldl (l : List Char) (a : ℕ) :
    l.foldl (fun a c => 10 * a + (c.toNat - 48)) a
      = a * 10 ^ l.length + digitsVal l := by
  induction l generalizing a with
  | nil => simp [digitsVal]
  | cons c t ih =>
    simp only [List.foldl_cons, List.length_cons, digitsVal]
    rw [ih (10 * a + (c.toNat - 48)), ih (10 * 0 + (c.toNat - 48))]
    ring

/-- Digit value of a head character. -/
theorem digitsVal_cons (c : Char) (t : List Char) :
    digitsVal (c :: t) = (c.toNat - 48) * 10 ^ t.length + digitsVal t := by
  show (c :: t).foldl (fun a c => 10 * a + (c.toNat - 48)) 0 = _
  rw [List.foldl_cons, digitsVal_foldl]
  norm_num

/-- Digit value of an appended last character. -/
theorem digitsVal_concat (l : List Char) (c : Char) :
    digitsVal (l ++ [c]) = 10 * digitsVal l + (c.toNat - 48) := by
  show (l ++ [c]).foldl (fun a c => 10 * a + (c.toNat - 48)) 0 = _
  rw [List.foldl_append]
  rfl

/-- The character of a digit below ten. -/
theorem char_ofNat_digit (d : ℕ) (h : d < 10) :
    (Char.ofNat (48 + d)).toNat = 48 + d ∧ (Char.ofNat (48 + d)).isDigit = true := by
  interval_cases d <;> exact ⟨rfl, rfl⟩

/-- The little-endian digit writer is correct whenever the fuel covers the
number. -/
theorem natDigitsRevGo_spec :
    ∀ fuel n : ℕ, n ≤ fuel →
      digitsVal (natDigitsRevGo fuel n).reverse = n
      ∧ (∀ c ∈ natDigitsRevGo fuel n, c.isDigit = true)
      ∧ (n ≠ 0 → natDigitsRevGo fuel n ≠ []) := by
  intro fuel
  induction fuel with
  | zero =>
    intro n hn
    obtain rfl : n = 0 := Nat.le_zero.mp hn
    exact ⟨rfl, by simp [natDigitsRevGo], fun h => absurd rfl h⟩
  | succ f ih =>
    intro n hn
    match n with
    | 0 => exact ⟨rfl, by simp [natDigitsRevGo], fun h => absurd rfl h⟩
    | m + 1 =>
      have hdiv : (m + 1) / 10 ≤ f := by
        have := Nat.div_lt_self (Nat.succ_pos m) (by norm_num : 1 < 10)
        omega
      obtain ⟨ihv, ihc, -⟩ := ih ((m + 1) / 10) hdiv
      have hmod : (m + 1) % 10 < 10 := Nat.mod_lt _ (by norm_num)
      obtain ⟨hton, hdig⟩ := char_ofNat_digit ((m + 1) % 10) hmod
      refine ⟨?_, ?_, fun _ => by simp [natDigitsRevGo]⟩
      · show digitsVal ((Char.ofNat (48 + (m + 1) % 10)
          :: natDigitsRevGo f ((m + 1) / 10)).reverse) = m + 1
        rw [List.reverse_cons, digitsVal_concat, ihv, hton]
        omega
      · intro c hc
        rw [show natDigitsRevGo (f + 1) (m + 1)
          = Char.ofNat (48 + (m + 1) % 10) :: natDigitsRevGo f ((m + 1) / 10)
          from rfl] at hc
        rcases List.mem_cons.mp hc with rfl | hmem
        · exact hdig
        · exact ihc c hmem

/-- `natDigits` writes the decimal digits: its value reads back, every
character is a digit, and it is never empty. -/
theorem natDigits_spec (n : ℕ) :
    digitsVal (natDigits n) = n
    ∧ (∀ c ∈ natDigits n, c.isDigit = true)
    ∧ natDigits n ≠ [] := by
  unfold natDigits
  split
  · next h => subst h; exact ⟨rfl, by decide, by decide⟩
  · next h =>
    obtain ⟨hv, hc, hne⟩ := natDigitsRevGo_spec n n le_rfl
    exact ⟨hv, fun c hm => hc c (List.mem_reverse.mp hm),
      fun he => (hne h) (by simpa using congrArg List.reverse he)⟩

/-- `fracDigits` produces exactly `k` characters. -/
theorem fracDigits_length (d : ℕ) : ∀ k r : ℕ, (fracDigits r d k).length = k := by
  intro k
  induction k with
  | zero => intro r; rfl
  | succ k ih => intro r; simp [fracDigits, ih]

/-- Long division is correct: the digit block of `r / d` to `k` places
reads back as `r * 10^k / d`, and every character is a digit. -/
theorem fracDigits_spec (d : ℕ) (hd : 0 < d) :
    ∀ k r : ℕ, r < d →
      digitsVal (fracDigits r d k) = r * 10 ^ k / d
      ∧ (∀ c ∈ fracDigits r d k, c.isDigit = true) := by
  intro k
  induction k with
  | zero =>
    intro r hr
    exact ⟨by simpa [digitsVal] using (Nat.div_eq_of_lt hr).symm, by simp [fracDigits]⟩
  | succ k ih =>
    intro r hr
    have hdig : r * 10 / d < 10 := by
      rw [Nat.div_lt_iff_lt_mul hd]
      calc r * 10 < d * 10 := by
            exact Nat.mul_lt_mul_of_pos_right hr (by norm_num)
        _ = 10 * d := by ring
    have hmod : r * 10 % d < d := Nat.mod_lt _ hd
    obtain ⟨ihv, ihc⟩ := ih (r * 10 % d) hmod
    obtain ⟨hton, hdigc⟩ := char_ofNat_digit (r * 10 / d) hdig
    constructor
    · show digitsVal (Char.ofNat (48 + r * 10 / d) :: fracDigits (r * 10 % d) d k)
        = r * 10 ^ (k + 1) / d
      rw [digitsVal_cons, ihv, fracDigits_length, hton]
      have h1 : r * 10 ^ (k + 1) = d * (r * 10 / d * 10 ^ k) + r * 10 % d * 10 ^ k := by
        have h0 : d * (r * 10 / d) + r * 10 % d = r * 10 := Nat.div_add_mod (r * 10) d
        calc r * 10 ^ (k + 1) = (r * 10) * 10 ^ k := by ring
          _ = (d * (r * 10 / d) + r * 10 % d) * 10 ^ k := by rw [h0]
          _ = d * (r * 10 / d * 10 ^ k) + r * 10 % d * 10 ^ k := by ring
      rw [h1, Nat.mul_add_div hd, Nat.add_sub_cancel_left]
    · intro c hc
      rcases List.mem_cons.mp hc with rfl | hmem
      · exact hdigc
      · exact ihc c hmem

/-- The multiplicity counter is correct whenever the fuel covers the
number. -/
theorem padicCountGo_eq (p : ℕ) (hp : 2 ≤ p) (m : ℕ) (hm : ¬ p ∣ m) (h0 : 0 < m) :
    ∀ (a fuel : ℕ), p ^ a * m ≤ fuel → padicCountGo p fuel (p ^ a * m) = a := by
  intro a
  induction a with
  | zero =>
    intro fuel hf
    simp only [pow_zero, one_mul] at hf ⊢
    match fuel with
    | 0 => omega
    | f + 1 => simp [padicCountGo, hm]
  | succ a ih =>
    intro fuel hf
    have hpa : 0 < p ^ a * m := Nat.mul_pos (pow_pos (by omega) a) h0
    have hpos : 0 < p ^ (a + 1) * m := Nat.mul_pos (pow_pos (by omega) (a + 1)) h0
    match fuel with
    | 0 => omega
    | f + 1 =>
      have hdvd : p ∣ p ^ (a + 1) * m := ⟨p ^ a * m, by ring⟩
      have hdivq : p ^ (a + 1) * m / p = p ^ a * m := by
        rw [show p ^ (a + 1) * m = p * (p ^ a * m) from by ring,
          Nat.mul_div_cancel_left _ (by omega)]
      have hlt : p ^ a * m < p ^ (a + 1) * m := by
        calc p ^ a * m < 2 * (p ^ a * m) := by omega
          _ ≤ p * (p ^ a * m) := Nat.mul_le_mul_right _ hp
          _ = p ^ (a + 1) * m := by ring
      have hle : p ^ a * m ≤ f := by omega
      show padicCountGo p (f + 1) (p ^ (a + 1) * m) = a + 1
      simp only [padicCountGo]
      rw [if_pos ⟨hp, hpos, hdvd⟩, hdivq, ih f hle]

/-- Two does not divide a power of five. -/
theorem not_two_dvd_five_pow (b : ℕ) : ¬ (2 ∣ 5 ^ b) := by
  intro h
  have := Nat.Prime.dvd_of_dvd_pow Nat.prime_two h
  omega

/-- Five does not divide a power of two. -/
theorem not_five_dvd_two_pow (a : ℕ) : ¬ (5 ∣ 2 ^ a) := by
  intro h
  have := Nat.Prime.dvd_of_dvd_pow (by norm_num : Nat.Prime 5) h
  omega

/-- Multiplicity of two in a 2-5-smooth number. -/
theorem padicCount_two (a b : ℕ) : padicCount 2 (2 ^ a * 5 ^ b) = a :=
  padicCountGo_eq 2 le_rfl (5 ^ b) (not_two_dvd_five_pow b)
    (pow_pos (by norm_num) b) a _ le_rfl

/-- Multiplicity of five in a 2-5-smooth number. -/
theorem padicCount_five (a b : ℕ) : padicCount 5 (2 ^ a * 5 ^ b) = b := by
  rw [mul_comm]
  exact padicCountGo_eq 5 (by norm_num) (2 ^ a) (not_five_dvd_two_pow a)
    (pow_pos (by norm_num) a) b _ le_rfl

/-- A 2-5-smooth number divides the corresponding power of ten. -/
theorem smooth_dvd_ten_pow (a b : ℕ) : 2 ^ a * 5 ^ b ∣ 10 ^ max a b := by
  rw [show (10 : ℕ) = 2 * 5 from rfl, mul_pow]
  exact mul_dvd_mul (pow_dvd_pow 2 (le_max_left a b)) (pow_dvd_pow 5 (le_max_right a b))

/-- `takeWhile`/`dropWhile` split an all-true block followed by a
stopping character. -/
theorem takeWhile_append_stop (p : Char → Bool) (l1 l2 : List Char)
    (h1 : ∀ c ∈ l1, p c = true)
    (h2 : ∀ c, l2.head? = some c → p c = false) :
    (l1 ++ l2).takeWhile p = l1 ∧ (l1 ++ l2).dropWhile p = l2 := by
  induction l1 with
  | nil =>
    simp only [List.nil_append]
    cases l2 with
    | nil => exact ⟨rfl, rfl⟩
    | cons c t =>
      have hc := h2 c rfl
      rw [List.takeWhile_cons, List.dropWhile_cons, hc]
      simp
  | cons a t ih =>
    have ha := h1 a (List.mem_cons_self a t)
    obtain ⟨ih1, ih2⟩ := ih fun c hc => h1 c (List.mem_cons_of_mem a hc)
    simp only [List.cons_append, List.takeWhile_cons, List.dropWhile_cons, ha]
    simp [ih1, ih2]

/-- `parseFloat` without a leading sign is `parseUnsigned`. -/
theorem parseFloat_not_sign (c : Char) (l : List Char)
    (h1 : c ≠ '+') (h2 : c ≠ '-') :
    parseFloat (c :: l) = parseUnsigned (c :: l) := by
  unfold parseFloat
  split
  · rename_i r heq
    injection heq with hc _
    exact absurd hc h1
  · rename_i r heq
    injection heq with hc _
    exact absurd hc h2
  · rfl

/-- `parseUnsigned` on a nonempty all-digit string. -/
theorem parseUnsigned_digits (l : List Char)
    (h : ∀ c ∈ l, c.isDigit = true) (hne : l ≠ []) :
    parseUnsigned l = some ((digitsVal l : ℚ)) := by
  have ht : (l ++ []).takeWhile Char.isDigit = l ∧ (l ++ []).dropWhile Char.isDigit = [] :=
    takeWhile_append_stop Char.isDigit l [] h fun c hc => by simp at hc
  rw [List.append_nil] at ht
  simp only [parseUnsigned]
  rw [ht.1, ht.2]
  simp [hne]

/-- `parseUnsigned` on digits, a point, and more digits. -/
theorem parseUnsigned_digits_frac (l1 l2 : List Char)
    (h1 : ∀ c ∈ l1, c.isDigit = true) (hne1 : l1 ≠ [])
    (h2 : ∀ c ∈ l2, c.isDigit = true) :
    parseUnsigned (l1 ++ '.' :: l2)
      = some ((digitsVal l1 : ℚ) + (digitsVal l2 : ℚ) / 10 ^ l2.length) := by
  have hsplit := takeWhile_append_stop Char.isDigit l1 ('.' :: l2) h1
    (fun c hc => by
      injection hc with hc0
      rw [← hc0]
      decide)
  have ht2 : (l2 ++ []).takeWhile Char.isDigit = l2 ∧ (l2 ++ []).dropWhile Char.isDigit = [] :=
    takeWhile_append_stop Char.isDigit l2 [] h2 fun c hc => by simp at hc
  rw [List.append_nil] at ht2
  simp only [parseUnsigned]
  rw [hsplit.1, hsplit.2]
  simp only [ht2.1, ht2.2]
  simp [hne1]

/-- The displayed digit blocks read back as the exact quotient. -/
theorem parseUnsigned_rep (n d k : ℕ) (hd0 : 0 < d) (hdvd : d ∣ 10 ^ k)
    (hmin : n % d ≠ 0 → 1 ≤ k) (hcop : n.Coprime d) :
    parseUnsigned (natDigits (n / d)
        ++ (if n % d = 0 then [] else '.' :: fracDigits (n % d) d k))
      = some ((n : ℚ) / d) := by
  obtain ⟨hv1, hc1, hne1⟩ := natDigits_spec (n / d)
  by_cases hr : n % d = 0
  · rw [if_pos hr, List.append_nil, parseUnsigned_digits _ hc1 hne1, hv1]
    have hdn : d ∣ n := Nat.dvd_of_mod_eq_zero hr
    have hd1 : d = 1 := Nat.Coprime.eq_one_of_dvd hcop.symm hdn
    rw [hd1]
    simp
  · rw [if_neg hr]
    have hrlt : n % d < d := Nat.mod_lt _ hd0
    obtain ⟨hfv, hfc⟩ := fracDigits_spec d hd0 k (n % d) hrlt
    have hk1 : 1 ≤ k := hmin hr
    rw [parseUnsigned_digits_frac _ _ hc1 hne1 hfc, hv1, hfv, fracDigits_length]
    have hdvd2 : d ∣ n % d * 10 ^ k := Dvd.dvd.mul_left hdvd (n % d)
    have hdq : (d : ℚ) ≠ 0 := Nat.cast_ne_zero.mpr (by omega)
    have hcast : ((n % d * 10 ^ k / d : ℕ) : ℚ) = (↑(n % d) * 10 ^ k) / ↑d := by
      rw [Nat.cast_div hdvd2 hdq]
      push_cast
      ring
    rw [hcast]
    have hnd : (d : ℚ) * ↑(n / d) + ↑(n % d) = ↑n := by
      exact_mod_cast Nat.div_add_mod n d
    have h10 : ((10 : ℚ)) ^ k ≠ 0 := by positivity
    congr 1
    rw [div_div, mul_comm (d : ℚ) ((10 : ℚ) ^ k), ← div_div,
      mul_div_assoc, div_self h10, mul_one]
    rw [eq_div_iff hdq, add_mul, div_mul_cancel₀ _ hdq]
    linear_combination hnd

/-- `dispQ` written without the intermediate bindings. -/
theorem dispQ_eq (q : ℚ) :
    dispQ q = (if q < 0 then ['-'] else []) ++ natDigits (q.num.natAbs / q.den)
      ++ (if q.num.natAbs % q.den = 0 then []
          else '.' :: fracDigits (q.num.natAbs % q.den) q.den
            (max (padicCount 2 q.den) (padicCount 5 q.den))) := by
  unfold dispQ
  split <;> simp

/-- Parsing the displayed decimal string of a value with a 2-5-smooth
denominator recovers the value exactly. -/
theorem parseFloat_dispQ (q : ℚ) (hden : ∃ a b : ℕ, q.den = 2 ^ a * 5 ^ b) :
    parseFloat (dispQ q) = some q := by
  obtain ⟨a, b, hd⟩ := hden
  have hd0 : 0 < q.den := q.pos
  have hk : max (padicCount 2 q.den) (padicCount 5 q.den) = max a b := by
    rw [hd, padicCount_two, padicCount_five]
  have hdvd10 : q.den ∣ 10 ^ max (padicCount 2 q.den) (padicCount 5 q.den) := by
    rw [hk, hd]
    exact smooth_dvd_ten_pow a b
  have hmin : q.num.natAbs % q.den ≠ 0 →
      1 ≤ max (padicCount 2 q.den) (padicCount 5 q.den) := by
    intro hr
    rw [hk]
    by_contra hab
    have ha0 : a = 0 := by omega
    have hb0 : b = 0 := by omega
    have : q.den = 1 := by rw [hd, ha0, hb0]; norm_num
    rw [this, Nat.mod_one] at hr
    exact hr rfl
  have hrep := parseUnsigned_rep q.num.natAbs q.den
    (max (padicCount 2 q.den) (padicCount 5 q.den)) hd0 hdvd10 hmin q.reduced
  by_cases hneg : q < 0
  · rw [dispQ_eq, if_pos hneg, List.append_assoc, List.singleton_append]
    rw [show parseFloat ('-' :: (natDigits (q.num.natAbs / q.den)
        ++ (if q.num.natAbs % q.den = 0 then []
            else '.' :: fracDigits (q.num.natAbs % q.den) q.den
              (max (padicCount 2 q.den) (padicCount 5 q.den)))))
      = (parseUnsigned (natDigits (q.num.natAbs / q.den)
        ++ (if q.num.natAbs % q.den = 0 then []
            else '.' :: fracDigits (q.num.natAbs % q.den) q.den
              (max (padicCount 2 q.den) (padicCount 5 q.den))))).map Neg.neg
      from rfl]
    rw [hrep]
    have hnum : (↑q.num.natAbs : ℚ) = -(↑q.num : ℚ) := by
      rw [Int.cast_natAbs, Int.cast_abs]
      exact abs_of_neg (by exact_mod_cast Rat.num_neg.mpr hneg)
    rw [Option.map_some']
    congr 1
    rw [hnum, neg_div, neg_neg, Rat.num_div_den]
  · rw [dispQ_eq, if_neg hneg, List.nil_append]
    obtain ⟨c0, cs, hcons⟩ :=
      List.exists_cons_of_ne_nil (natDigits_spec (q.num.natAbs / q.den)).2.2
    have hc0 : c0.isDigit = true :=
      (natDigits_spec (q.num.natAbs / q.den)).2.1 c0
        (hcons ▸ List.mem_cons_self c0 cs)
    rw [hcons, List.cons_append,
      parseFloat_not_sign c0 _ (digit_ne_plus c0 hc0) (digit_ne_minus c0 hc0),
      ← List.cons_append, ← hcons, hrep]
    have hnum : (↑q.num.natAbs : ℚ) = (↑q.num : ℚ) := by
      rw [Int.cast_natAbs, Int.cast_abs]
      exact abs_of_nonneg (by exact_mod_cast Rat.num_nonneg.mpr (not_lt.mp hneg))
    congr 1
    rw [hnum, Rat.num_div_den]

/-- Every character of a displayed value is a sign, a point, or a digit. -/
theorem dispQ_chars (q : ℚ) :
    ∀ c ∈ dispQ q, c = '-' ∨ c = '.' ∨ c.isDigit = true := by
  intro c hc
  rw [dispQ_eq] at hc
  rcases List.mem_append.mp hc with h | h
  · rcases List.mem_append.mp h with h1 | h1
    · by_cases hq : q < 0
      · rw [if_pos hq] at h1
        left
        simpa using h1
      · rw [if_neg hq] at h1
        simp at h1
    · exact Or.inr (Or.inr ((natDigits_spec _).2.1 c h1))
  · by_cases hr : q.num.natAbs % q.den = 0
    · rw [if_pos hr] at h
      simp at h
    · rw [if_neg hr] at h
      rcases List.mem_cons.mp h with rfl | h2
      · exact Or.inr (Or.inl rfl)
      · exact Or.inr (Or.inr
          ((fracDigits_spec q.den q.pos _ _ (Nat.mod_lt _ q.pos)).2 c h2))

/-- A displayed value contains no whitespace. -/
theorem dispQ_not_ws (q : ℚ) : ∀ c ∈ dispQ q, c.isWhitespace = false := by
  intro c hc
  rcases dispQ_chars q c hc with rfl | rfl | hd
  · decide
  · decide
  · exact digit_not_ws c hd

/-- A displayed value of smooth denominator ends with a digit. -/
theorem dispQ_getLast_digit (q : ℚ) (hden : ∃ a b : ℕ, q.den = 2 ^ a * 5 ^ b) :
    ∃ c, (dispQ q).getLast? = some c ∧ c.isDigit = true := by
  rw [dispQ_eq]
  by_cases hr : q.num.natAbs % q.den = 0
  · rw [if_pos hr, List.append_nil]
    obtain ⟨-, hc, hne⟩ := natDigits_spec (q.num.natAbs / q.den)
    refine ⟨(natDigits (q.num.natAbs / q.den)).getLast hne, ?_,
      hc _ (List.getLast_mem hne)⟩
    rw [List.getLast?_append, List.getLast?_eq_getLast _ hne]
    rfl
  · rw [if_neg hr]
    obtain ⟨a, b, hd⟩ := hden
    have hk1 : 1 ≤ max (padicCount 2 q.den) (padicCount 5 q.den) := by
      rw [hd, padicCount_two, padicCount_five]
      by_contra hab
      have ha0 : a = 0 := by omega
      have hb0 : b = 0 := by omega
      rw [ha0, hb0] at hd
      norm_num at hd
      rw [hd, Nat.mod_one] at hr
      exact hr rfl
    have hfne : fracDigits (q.num.natAbs % q.den) q.den
        (max (padicCount 2 q.den) (padicCount 5 q.den)) ≠ [] := by
      intro he
      have := fracDigits_length q.den
        (max (padicCount 2 q.den) (padicCount 5 q.den)) (q.num.natAbs % q.den)
      rw [he] at this
      simp at this
      omega
    obtain ⟨-, hfc⟩ := fracDigits_spec q.den q.pos
      (max (padicCount 2 q.den) (padicCount 5 q.den)) (q.num.natAbs % q.den)
      (Nat.mod_lt _ q.pos)
    refine ⟨(fracDigits (q.num.natAbs % q.den) q.den
        (max (padicCount 2 q.den) (padicCount 5 q.den))).getLast hfne, ?_,
      hfc _ (List.getLast_mem hfne)⟩
    rw [List.getLast?_append]
    have hcons : ∀ (l : List Char), l ≠ [] → ('.' :: l).getLast? = l.getLast? := by
      intro l hl
      obtain ⟨b, t, rfl⟩ := List.exists_cons_of_ne_nil hl
      exact List.getLast?_cons_cons
    rw [hcons _ hfne, List.getLast?_eq_getLast _ hfne]
    rfl

/-- Prefix symbols contain no whitespace. -/
theorem suffix_name_not_ws (s : Suffix) : ∀ c ∈ s.name, c.isWhitespace = false := by
  cases s <;> decide

/-- Unit symbols contain no whitespace. -/
theorem utag_symbol_not_ws (u : UTag) : ∀ c ∈ u.symbol, c.isWhitespace = false := by
  cases u <;> decide

/-- Parsing a displayed mantissa with an appended table symbol recovers
the mantissa and that symbol's prefix. -/
theorem fromStr_dispSym (v : ℚ) (hden : ∃ a b : ℕ, v.den = 2 ^ a * 5 ^ b)
    (s : Suffix) (c : Char) (hmem : (s, [c]) ∈ PREFIX_TABLE) :
    fromStrGo (dispQ v ++ [c]) PREFIX_TABLE = Except.ok ⟨v, s⟩ := by
  rw [fromStrGo_hit _ s c hmem (List.suffix_append _ _), dropSuffixList_append,
    trimList_eq_self _ (dispQ_not_ws v), parseFloat_dispQ v hden]

/-- Parsing a displayed scalar recovers the scalar exactly: the mantissa
and the prefix both round-trip. -/
theorem fromStr_display (x : Number)
    (hden : ∃ a b : ℕ, x.value.den = 2 ^ a * 5 ^ b) :
    Number.fromStr (Number.display x) = Except.ok x := by
  obtain ⟨v, s⟩ := x
  show Number.fromStr (dispQ v ++ s.name) = Except.ok ⟨v, s⟩
  have hnws : ∀ c ∈ dispQ v ++ s.name, c.isWhitespace = false := by
    intro c hc
    rcases List.mem_append.mp hc with h | h
    · exact dispQ_not_ws v c h
    · exact suffix_name_not_ws s c h
  unfold Number.fromStr
  rw [trimList_eq_self _ hnws]
  cases s
  case none =>
    rw [show Suffix.none.name = [] from rfl, List.append_nil]
    have hnom : ∀ p ∈ PREFIX_TABLE, ¬ p.2 <:+ dispQ v := by
      obtain ⟨c, hcl, hcd⟩ := dispQ_getLast_digit v hden
      intro p hp hsuf
      simp only [PREFIX_TABLE, List.mem_cons, List.not_mem_nil, or_false] at hp
      rcases hp with rfl | rfl | rfl | rfl | rfl | rfl | rfl | rfl <;>
        (have h2 := (singleton_suffix _ _).mp hsuf
         rw [h2] at hcl
         injection hcl with h3
         rw [← h3] at hcd
         exact absurd hcd (by decide))
    rw [fromStrGo_miss _ hnom, parseFloat_dispQ v hden]
  all_goals exact fromStr_dispSym v hden _ _ (by decide)

/-- Parsing a formatted quantity recovers the quantity exactly. -/
theorem qParse_format (x : Quantity)
    (hden : ∃ a b : ℕ, x.number.value.den = 2 ^ a * 5 ^ b) :
    qParse x.tag (qFormat x) = Except.ok x := by
  obtain ⟨nx, u⟩ := x
  show qParse u (Number.display nx ++ u.symbol) = Except.ok ⟨nx, u⟩
  have hnws : ∀ c ∈ Number.display nx ++ u.symbol, c.isWhitespace = false := by
    intro c hc
    rcases List.mem_append.mp hc with h | h
    · have h' : c ∈ dispQ nx.value ++ nx.suffix.name := h
      rcases List.mem_append.mp h' with h1 | h1
      · exact dispQ_not_ws nx.value c h1
      · exact suffix_name_not_ws nx.suffix c h1
    · exact utag_symbol_not_ws u c h
  simp only [qParse]
  rw [trimList_eq_self _ hnws, if_pos (List.suffix_append _ _),
    dropSuffixList_append, fromStr_display nx hden]

/-- C5: formatting a quantity, parsing the string back with the same unit
tag, and formatting again yields the same string — parsing in fact
recovers the quantity exactly, for every unit tag and every value whose
mantissa is decimal-representable (as every finite float is). -/
theorem format_parse_format (u : UTag) (v : Number)
    (hden : ∃ a b : ℕ, v.value.den = 2 ^ a * 5 ^ b) :
    qParse u (qFormat ⟨v, u⟩) = Except.ok ⟨v, u⟩
    ∧ (qParse u (qFormat ⟨v, u⟩)).map qFormat = Except.ok (qFormat ⟨v, u⟩) := by
  have h := qParse_format ⟨v, u⟩ hden
  exact ⟨h, by rw [h]; rfl⟩

/-- Witness for C5 at the Voltage with mantissa 2 and prefix kilo. -/
theorem format_parse_format_witness :
    qParse UTag.voltage (qFormat ⟨⟨2, Suffix.kilo⟩, UTag.voltage⟩)
      = Except.ok ⟨⟨2, Suffix.kilo⟩, UTag.voltage⟩ :=
  (format_parse_format UTag.voltage ⟨2, Suffix.kilo⟩ ⟨0, 0, rfl⟩).1

end Runit
